import Mathlib

/-!
Formal model of the EmbeddedWiegand repository (wiegand_interface.hpp and
pins.hpp), together with theorems settling the specification claims.

The C++ code is shallowly embedded: machine integers are modelled as Nat
with explicit truncation (mod 2^32 for uint32_t fields, mod 2^64 for size_t
arithmetic).  The two GPIO pins are modelled by their mode (input/output)
and last written level; the hardware operations performed by a tick are
additionally recorded as an explicit list of line operations so that pulse
sequences can be stated and compared.

Notes on the source:
* WiegandInterface::send guards on the identifier "state"; the class member
  is "state_" and the guard is modelled as reading that member.
* The C expression "1 << k" (int shift) stored into the uint32_t member
  mask_bit_ is modelled as its value modulo 2^32, i.e. 2^k for k < 32 and 0
  for k >= 32 (shifts past the word keep no low bits).
-/

namespace EmbeddedWiegand

/-- The two Wiegand bus lines, D0 and D1. -/
inductive Line
  | d0
  | d1
deriving DecidableEq, Repr

/-- A hardware operation performed on a line, in the order the code performs
them: switching the pin to output mode (released high), switching it to
input (floating), driving it low, releasing it high. -/
inductive Op
  | output (l : Line)
  | input (l : Line)
  | setLow (l : Line)
  | setHigh (l : Line)
deriving DecidableEq, Repr

/-- The State enum of WiegandInterface (RECEIVING is declared but never
entered). -/
inductive MState
  | idle
  | receiving
  | sending
deriving DecidableEq, Repr

/-- Pin direction mode. -/
inductive PMode
  | input
  | output
deriving DecidableEq, Repr

/-- A GPIO pin as used by the Pin wrapper in pins.hpp: its direction mode
and the last level written to it (true = high/released, false = driven
low). -/
structure PinS where
  mode : PMode
  level : Bool
deriving DecidableEq, Repr

/-- Pin construction: PIN_INPUT with initial written value 1. -/
def pinInit : PinS := ⟨PMode.input, true⟩

/-- Pin::output(): switch to open-drain output mode and write 1. -/
def pinOutput (_p : PinS) : PinS := ⟨PMode.output, true⟩

/-- Pin::input(): switch to input mode (the written value is retained). -/
def pinInput (p : PinS) : PinS := ⟨PMode.input, p.level⟩

/-- Pin::set_low(): write 0. -/
def pinSetLow (p : PinS) : PinS := ⟨p.mode, false⟩

/-- Pin::set_high(): write 1. -/
def pinSetHigh (p : PinS) : PinS := ⟨p.mode, true⟩

/-- A pin actively drives the bus low iff it is in output mode with a low
written level (open drain: in input mode or at level 1 it floats). -/
def drivenLow (p : PinS) : Prop := p.mode = PMode.output ∧ p.level = false

instance (p : PinS) : Decidable (drivenLow p) := by
  unfold drivenLow; infer_instance

/-- The full state of one WiegandInterface object. -/
structure S where
  state_ : MState
  code_ : Nat
  code_ext_ : Nat
  mask_bit_ : Nat
  send_pos_ : Nat
  send_bits_ : Nat
  d0 : PinS
  d1 : PinS
deriving DecidableEq, Repr

/-- The state of a freshly constructed WiegandInterface with freshly
constructed pins (member initializers of the class and Pin). -/
def initS : S :=
  { state_ := MState.idle, code_ := 0, code_ext_ := 0, mask_bit_ := 1
  , send_pos_ := 0, send_bits_ := 26, d0 := pinInit, d1 := pinInit }

/-- size_t decrement: subtraction of 1 modulo 2^64 (wraps at 0). -/
def decr64 (x : Nat) : Nat := (x + (2 ^ 64 - 1)) % 2 ^ 64

/-- Value of the C expression "1 << k" once stored into a uint32_t: the low
32 bits of the mathematical shift. -/
def shl1u32 (k : Nat) : Nat := if k < 32 then 2 ^ k else 0

/-- WiegandInterface::write_bit: drive D0 low for a zero bit, D1 low for a
nonzero bit.  Returns the new state and the operations performed. -/
def write_bit (val : Nat) (s : S) : S × List Op :=
  if val = 0 then ({ s with d0 := pinSetLow s.d0 }, [Op.setLow Line.d0])
  else ({ s with d1 := pinSetLow s.d1 }, [Op.setLow Line.d1])

/-- WiegandInterface::send.  Returns the C++ return value and the new
state.  The send_bits argument is a size_t (values taken mod 2^64); code is
split into a 32-bit primary word and a 32-bit extension word when more than
32 bits are requested. -/
def send (code : Nat) (send_bits : Nat) (s : S) : Bool × S :=
  if s.state_ ≠ MState.idle then (false, s)
  else
    let nb := send_bits % 2 ^ 64
    if 32 < nb then
      (true, { s with
        code_ := (code >>> 32) % 2 ^ 32
        code_ext_ := code % 2 ^ 32
        mask_bit_ := shl1u32 (nb - 1 - 32)
        send_pos_ := 0
        send_bits_ := nb
        state_ := MState.sending })
    else
      (true, { s with
        code_ := code % 2 ^ 32
        mask_bit_ := shl1u32 (decr64 nb)
        send_pos_ := 0
        send_bits_ := nb
        state_ := MState.sending })

/-- The code executed after the switch in WiegandInterface::tick: if the
bit-cursor mask has become 0, reset it to the top bit of a 32-bit word and
swap the extension word in as the active code; then increment the position
counter (a size_t). -/
def tickTail (s : S) : S :=
  if s.mask_bit_ = 0 then
    { s with mask_bit_ := 2 ^ 31, code_ := s.code_ext_
           , send_pos_ := (s.send_pos_ + 1) % 2 ^ 64 }
  else
    { s with send_pos_ := (s.send_pos_ + 1) % 2 ^ 64 }

/-- The pin changes of the block guarded by send_pos_ == 0 in tick (both
pins switched to output mode); identity on the other fields. -/
def outPins (s : S) : S := { s with d0 := pinOutput s.d0, d1 := pinOutput s.d1 }

/-- tick's leading block: on the very first call of a job (send_pos_ == 0)
both pins are switched to output mode. -/
def firstOut (s : S) : S := if s.send_pos_ = 0 then outPins s else s

/-- The operations performed by tick's leading block. -/
def firstOps (s : S) : List Op :=
  if s.send_pos_ = 0 then [Op.output Line.d0, Op.output Line.d1] else []

/-- WiegandInterface::tick.  No-op unless sending; otherwise keyed on
send_pos_ % 4: phase 0 writes the current bit and advances the mask, phase
1 releases both lines and checks completion (returning early to IDLE with
both pins set to input when the last bit is done), phases 2 and 3 only
advance the position.  firstOut/firstOps only touch the pins, so the
arithmetic fields are read off s directly. -/
def tick (s : S) : S × List Op :=
  if s.state_ ≠ MState.sending then (s, [])
  else
    let s1 := firstOut s
    if s.send_pos_ % 4 = 0 then
      let w := write_bit (s.code_ &&& s.mask_bit_) s1
      (tickTail { w.1 with mask_bit_ := s.mask_bit_ >>> 1 }, firstOps s ++ w.2)
    else if s.send_pos_ % 4 = 1 then
      let s2 := { s1 with d0 := pinSetHigh s1.d0, d1 := pinSetHigh s1.d1
                        , send_bits_ := decr64 s.send_bits_ }
      if s2.send_bits_ = 0 then
        ({ s2 with d0 := pinInput s2.d0, d1 := pinInput s2.d1
                 , state_ := MState.idle },
         firstOps s ++ [Op.setHigh Line.d0, Op.setHigh Line.d1,
                        Op.input Line.d0, Op.input Line.d1])
      else
        (tickTail s2, firstOps s ++ [Op.setHigh Line.d0, Op.setHigh Line.d1])
    else
      (tickTail s1, firstOps s)

/-- Iterate tick j times from s, keeping only the state. -/
def tickN (s : S) : Nat → S
  | 0 => s
  | j + 1 => (tick (tickN s j)).1

/-- The operations performed by the (i+1)-st tick after state s (0-indexed
tick i). -/
def opsAt (s : S) (i : Nat) : List Op := (tick (tickN s i)).2

/-- Number of low pulses (setLow operations) in a list of operations. -/
def countLow (ops : List Op) : Nat :=
  ops.countP (fun o => match o with | Op.setLow _ => true | _ => false)

/-- Total number of low pulses emitted by the first j ticks after s. -/
def pulsesUpTo (s : S) : Nat → Nat
  | 0 => 0
  | j + 1 => pulsesUpTo s j + countLow (opsAt s j)

/-- The parity-accumulating loop of WiegandInterface::add_parity: m
iterations of {acc ^= code & 1; code >>= 1}, returning the final
accumulator and the final shifted code. -/
def parityLoop : Nat → Nat → Nat → Nat × Nat
  | 0, c, acc => (acc, c)
  | m + 1, c, acc => parityLoop m (c >>> 1) (acc ^^^ (c &&& 1))

/-- WiegandInterface::add_parity.  The word width is 32 bits for BITS <= 32
and 64 bits otherwise; the shifted code is truncated at that width. -/
def add_parity (BITS : Nat) (code : Nat) : Nat :=
  let W : Nat := if BITS ≤ 32 then 32 else 64
  let code_shifted := (code <<< 1) % 2 ^ W
  let po := parityLoop (BITS / 2 - 1) code 1
  let pe := parityLoop (BITS / 2 - 1) po.2 0
  code_shifted ||| (pe.1 <<< (BITS - 1)) % 2 ^ W ||| po.1

/-- XOR of the low m bits of c. -/
def bitsXor : Nat → Nat → Nat
  | _, 0 => 0
  | c, m + 1 => (c &&& 1) ^^^ bitsXor (c >>> 1) m

/-- The raw facility/id packing computed inside WiegandInterface::code
before parity is attached: (facility << (BITS - 10)) | id at the chosen
word width (facility is a uint8_t). -/
def rawCode (BITS facility id : Nat) : Nat :=
  let W : Nat := if BITS ≤ 32 then 32 else 64
  (((facility % 2 ^ 8) <<< (BITS - 10)) ||| id) % 2 ^ W

/-- WiegandInterface::code: pack facility and id, then add parity. -/
def code (BITS facility id : Nat) : Nat := add_parity BITS (rawCode BITS facility id)

/-- States reachable from a freshly constructed interface by any sequence
of send and tick calls. -/
inductive Reachable : S → Prop
  | init : Reachable initS
  | step_send (c n : Nat) {s : S} : Reachable s → Reachable (send c n s).2
  | step_tick {s : S} : Reachable s → Reachable (tick s).1

/-! ### Projection lemmas for the tick building blocks -/

@[simp] lemma tickTail_state_ (s : S) : (tickTail s).state_ = s.state_ := by
  unfold tickTail; split <;> rfl

@[simp] lemma tickTail_send_bits_ (s : S) : (tickTail s).send_bits_ = s.send_bits_ := by
  unfold tickTail; split <;> rfl

@[simp] lemma tickTail_send_pos_ (s : S) :
    (tickTail s).send_pos_ = (s.send_pos_ + 1) % 2 ^ 64 := by
  unfold tickTail; split <;> rfl

@[simp] lemma tickTail_code_ext_ (s : S) : (tickTail s).code_ext_ = s.code_ext_ := by
  unfold tickTail; split <;> rfl

@[simp] lemma tickTail_d0 (s : S) : (tickTail s).d0 = s.d0 := by
  unfold tickTail; split <;> rfl

@[simp] lemma tickTail_d1 (s : S) : (tickTail s).d1 = s.d1 := by
  unfold tickTail; split <;> rfl

lemma tickTail_mask_bit_ (s : S) :
    (tickTail s).mask_bit_ = if s.mask_bit_ = 0 then 2 ^ 31 else s.mask_bit_ := by
  unfold tickTail; split <;> simp_all

lemma tickTail_code_ (s : S) :
    (tickTail s).code_ = if s.mask_bit_ = 0 then s.code_ext_ else s.code_ := by
  unfold tickTail; split <;> simp_all

@[simp] lemma write_bit_fst_state_ (v : Nat) (s : S) :
    (write_bit v s).1.state_ = s.state_ := by unfold write_bit; split <;> rfl

@[simp] lemma write_bit_fst_code_ (v : Nat) (s : S) :
    (write_bit v s).1.code_ = s.code_ := by unfold write_bit; split <;> rfl

@[simp] lemma write_bit_fst_code_ext_ (v : Nat) (s : S) :
    (write_bit v s).1.code_ext_ = s.code_ext_ := by unfold write_bit; split <;> rfl

@[simp] lemma write_bit_fst_mask_bit_ (v : Nat) (s : S) :
    (write_bit v s).1.mask_bit_ = s.mask_bit_ := by unfold write_bit; split <;> rfl

@[simp] lemma write_bit_fst_send_pos_ (v : Nat) (s : S) :
    (write_bit v s).1.send_pos_ = s.send_pos_ := by unfold write_bit; split <;> rfl

@[simp] lemma write_bit_fst_send_bits_ (v : Nat) (s : S) :
    (write_bit v s).1.send_bits_ = s.send_bits_ := by unfold write_bit; split <;> rfl

@[simp] lemma write_bit_snd (v : Nat) (s : S) :
    (write_bit v s).2 = [Op.setLow (if v = 0 then Line.d0 else Line.d1)] := by
  unfold write_bit; split <;> simp_all

@[simp] lemma firstOut_state_ (s : S) : (firstOut s).state_ = s.state_ := by
  unfold firstOut outPins; split <;> rfl

@[simp] lemma firstOut_code_ (s : S) : (firstOut s).code_ = s.code_ := by
  unfold firstOut outPins; split <;> rfl

@[simp] lemma firstOut_code_ext_ (s : S) : (firstOut s).code_ext_ = s.code_ext_ := by
  unfold firstOut outPins; split <;> rfl

@[simp] lemma firstOut_mask_bit_ (s : S) : (firstOut s).mask_bit_ = s.mask_bit_ := by
  unfold firstOut outPins; split <;> rfl

@[simp] lemma firstOut_send_pos_ (s : S) : (firstOut s).send_pos_ = s.send_pos_ := by
  unfold firstOut outPins; split <;> rfl

@[simp] lemma firstOut_send_bits_ (s : S) : (firstOut s).send_bits_ = s.send_bits_ := by
  unfold firstOut outPins; split <;> rfl

lemma firstOut_of_pos_ne (s : S) (h : s.send_pos_ ≠ 0) : firstOut s = s := by
  unfold firstOut; simp [h]

lemma firstOps_of_pos_ne (s : S) (h : s.send_pos_ ≠ 0) : firstOps s = [] := by
  unfold firstOps; simp [h]

/-! ### Iteration algebra -/

lemma tickN_succ (s : S) (j : Nat) : tickN s (j + 1) = (tick (tickN s j)).1 := rfl

lemma tickN_add (s : S) (a b : Nat) : tickN s (a + b) = tickN (tickN s a) b := by
  induction b with
  | zero => rfl
  | succ b ih => rw [← Nat.add_assoc, tickN_succ, ih]; rfl

lemma opsAt_add (s : S) (a i : Nat) : opsAt s (a + i) = opsAt (tickN s a) i := by
  unfold opsAt; rw [tickN_add]

lemma pulsesUpTo_add (s : S) (a b : Nat) :
    pulsesUpTo s (a + b) = pulsesUpTo s a + pulsesUpTo (tickN s a) b := by
  induction b with
  | zero => rfl
  | succ b ih =>
      rw [← Nat.add_assoc]
      show pulsesUpTo s (a + b) + countLow (opsAt s (a + b)) = _
      rw [ih, opsAt_add]
      show _ = pulsesUpTo s a + (pulsesUpTo (tickN s a) b + countLow (opsAt (tickN s a) b))
      omega

lemma tick_not_sending (s : S) (h : s.state_ ≠ MState.sending) : tick s = (s, []) := by
  unfold tick; simp [h]

lemma tickN_idle (s : S) (h : s.state_ = MState.idle) (j : Nat) : tickN s j = s := by
  induction j with
  | zero => rfl
  | succ j ih => rw [tickN_succ, ih, tick_not_sending s (by rw [h]; intro hc; cases hc)]

/-! ### Per-phase characterization of tick -/

lemma tick_phase0 (s : S) (hs : s.state_ = MState.sending) (hp : s.send_pos_ % 4 = 0) :
    tick s = (tickTail { (write_bit (s.code_ &&& s.mask_bit_) (firstOut s)).1 with
                  mask_bit_ := s.mask_bit_ >>> 1 },
              firstOps s ++ (write_bit (s.code_ &&& s.mask_bit_) (firstOut s)).2) := by
  unfold tick; simp [hs, hp]

lemma tick_phase1_cont (s : S) (hs : s.state_ = MState.sending)
    (hp : s.send_pos_ % 4 = 1) (hb : decr64 s.send_bits_ ≠ 0) :
    tick s = (tickTail { s with d0 := pinSetHigh s.d0, d1 := pinSetHigh s.d1
                              , send_bits_ := decr64 s.send_bits_ },
              [Op.setHigh Line.d0, Op.setHigh Line.d1]) := by
  have hz : s.send_pos_ ≠ 0 := by omega
  unfold tick
  rw [firstOut_of_pos_ne s hz, firstOps_of_pos_ne s hz]
  simp [hs, hp, hb]

lemma tick_phase1_done (s : S) (hs : s.state_ = MState.sending)
    (hp : s.send_pos_ % 4 = 1) (hb : decr64 s.send_bits_ = 0) :
    tick s = ({ s with d0 := pinInput (pinSetHigh s.d0), d1 := pinInput (pinSetHigh s.d1)
                     , send_bits_ := 0, state_ := MState.idle },
              [Op.setHigh Line.d0, Op.setHigh Line.d1,
               Op.input Line.d0, Op.input Line.d1]) := by
  have hz : s.send_pos_ ≠ 0 := by omega
  unfold tick
  rw [firstOut_of_pos_ne s hz, firstOps_of_pos_ne s hz]
  simp [hs, hp, hb]

lemma tick_gap (s : S) (hs : s.state_ = MState.sending)
    (h0 : s.send_pos_ % 4 ≠ 0) (h1 : s.send_pos_ % 4 ≠ 1) :
    tick s = (tickTail s, []) := by
  have hz : s.send_pos_ ≠ 0 := by omega
  unfold tick
  rw [firstOut_of_pos_ne s hz, firstOps_of_pos_ne s hz]
  simp [hs, h0, h1]

/-! ### Arithmetic helpers -/

lemma two64 : (2 : Nat) ^ 64 = 18446744073709551616 := by norm_num

lemma decr64_eq (x : Nat) (h1 : 1 ≤ x) (h2 : x < 2 ^ 64) : decr64 x = x - 1 := by
  unfold decr64
  omega

lemma decr64_lt (x : Nat) : decr64 x < 2 ^ 64 := by
  unfold decr64
  exact Nat.mod_lt _ (by norm_num)

lemma two_pow_shiftRight_one (e : Nat) :
    (2 ^ e : Nat) >>> 1 = if e = 0 then 0 else 2 ^ (e - 1) := by
  cases e with
  | zero => rfl
  | succ e =>
      rw [if_neg (Nat.succ_ne_zero e), Nat.succ_sub_one, Nat.shiftRight_eq_div_pow,
        pow_one, pow_succ, Nat.mul_div_cancel _ (by norm_num)]

lemma testBit_low_word (c e : Nat) (he : e < 32) :
    (c % 2 ^ 32).testBit e = c.testBit e := by
  rw [Nat.testBit_mod_two_pow]
  simp [he]

lemma testBit_high_word (c e : Nat) (he : e < 32) :
    ((c >>> 32) % 2 ^ 32).testBit e = c.testBit (32 + e) := by
  rw [Nat.testBit_mod_two_pow]
  simp [he, Nat.testBit_shiftRight]

lemma and_two_pow_eq_zero_iff (x e : Nat) :
    (x &&& 2 ^ e = 0) ↔ x.testBit e = false := by
  have hne : (2 : Nat) ^ e ≠ 0 := (pow_pos (by norm_num) e).ne'
  rw [Nat.and_two_pow]
  cases h : x.testBit e <;> simp [h, hne]

lemma countLow_append (a b : List Op) :
    countLow (a ++ b) = countLow a + countLow b := List.countP_append _ _ _

lemma countLow_firstOps (s : S) : countLow (firstOps s) = 0 := by
  unfold firstOps; split <;> rfl

/-! ### Expected operation list per tick of a transmission

For a job sending n bits of code c, tick number i (0-indexed) performs:
both pins to output on the very first tick, a single low pulse on the line
for bit number i/4+1 at phase 0, both lines released high at phase 1 (plus
both pins to input on the final bit), and nothing at phases 2 and 3. -/

def opsFor (c n i : Nat) : List Op :=
  (if i = 0 then [Op.output Line.d0, Op.output Line.d1] else []) ++
  (if i % 4 = 0 then
    [Op.setLow (if c.testBit (n - (i / 4 + 1)) then Line.d1 else Line.d0)]
   else if i % 4 = 1 then
    [Op.setHigh Line.d0, Op.setHigh Line.d1] ++
      (if i / 4 + 1 = n then [Op.input Line.d0, Op.input Line.d1] else [])
   else [])

lemma opsFor_p0 (c n k : Nat) (hk : 1 ≤ k) :
    opsFor c n (4 * (k - 1)) =
      (if k = 1 then [Op.output Line.d0, Op.output Line.d1] else []) ++
        [Op.setLow (if c.testBit (n - k) then Line.d1 else Line.d0)] := by
  unfold opsFor
  have h4 : 4 * (k - 1) % 4 = 0 := by omega
  have hd : 4 * (k - 1) / 4 = k - 1 := by omega
  rw [h4, hd, if_pos rfl, if_congr (show 4 * (k - 1) = 0 ↔ k = 1 by omega) rfl rfl]
  have : k - 1 + 1 = k := by omega
  rw [this]

lemma opsFor_p1 (c n k : Nat) (hk : 1 ≤ k) :
    opsFor c n (4 * (k - 1) + 1) =
      [Op.setHigh Line.d0, Op.setHigh Line.d1] ++
        (if k = n then [Op.input Line.d0, Op.input Line.d1] else []) := by
  unfold opsFor
  have h4 : (4 * (k - 1) + 1) % 4 = 1 := by omega
  have hd : (4 * (k - 1) + 1) / 4 = k - 1 := by omega
  rw [h4, hd]
  have h0 : 4 * (k - 1) + 1 ≠ 0 := by omega
  rw [if_neg h0, if_neg (by omega), if_pos rfl,
    if_congr (show k - 1 + 1 = n ↔ k = n by omega) rfl rfl]
  rfl

lemma opsFor_p2 (c n k : Nat) : opsFor c n (4 * (k - 1) + 2) = [] := by
  unfold opsFor
  have h4 : (4 * (k - 1) + 2) % 4 = 2 := by omega
  rw [h4]
  rw [if_neg (by omega), if_neg (by omega), if_neg (by omega)]
  rfl

lemma opsFor_p3 (c n k : Nat) : opsFor c n (4 * (k - 1) + 3) = [] := by
  unfold opsFor
  have h4 : (4 * (k - 1) + 3) % 4 = 3 := by omega
  rw [h4]
  rw [if_neg (by omega), if_neg (by omega), if_neg (by omega)]
  rfl

/-! ### The in-flight job invariant

At the start of bit k (1-indexed) of an n-bit job for code c, the position
counter is 4*(k-1), the remaining-bit counter is n-k+1, and the active word
and bit-cursor mask are: the high 32-bit word with mask 2^(n-32-k) while
the job is wide and still in its primary word (k ≤ n-32), and the low word
with mask 2^(n-k) otherwise. -/

def Inv (c n k : Nat) (s : S) : Prop :=
  s.state_ = MState.sending ∧
  s.send_pos_ = 4 * (k - 1) ∧
  s.send_bits_ = n - k + 1 ∧
  ((32 < n ∧ k ≤ n - 32 ∧ s.code_ = (c >>> 32) % 2 ^ 32 ∧ s.code_ext_ = c % 2 ^ 32 ∧
      s.mask_bit_ = 2 ^ (n - 32 - k)) ∨
   ((n ≤ 32 ∨ n - 32 < k) ∧ s.code_ = c % 2 ^ 32 ∧ s.mask_bit_ = 2 ^ (n - k)))

@[simp] lemma countLow_nil : countLow [] = 0 := rfl

@[simp] lemma countLow_setLow (l : Line) : countLow [Op.setLow l] = 1 := rfl

@[simp] lemma countLow_high2 :
    countLow [Op.setHigh Line.d0, Op.setHigh Line.d1] = 0 := rfl

@[simp] lemma countLow_done4 :
    countLow [Op.setHigh Line.d0, Op.setHigh Line.d1,
              Op.input Line.d0, Op.input Line.d1] = 0 := rfl

/-- One complete non-final bit cycle: from a sending state at the start of
a bit with remaining count at least 2 and mask 2^e, four ticks emit one
pulse on the line selected by bit e of the active word, release both lines,
decrement the remaining count by one, and either continue down the active
word (mask 2^(e-1)) or, when the word is exhausted (e = 0), reload the mask
with the top bit of a 32-bit word and swap the extension word in. -/
lemma four_ticks (s : S) (e : Nat)
    (hst : s.state_ = MState.sending)
    (hp4 : s.send_pos_ % 4 = 0)
    (hplt : s.send_pos_ + 4 < 2 ^ 64)
    (hmask : s.mask_bit_ = 2 ^ e)
    (hb2 : 2 ≤ s.send_bits_)
    (hblt : s.send_bits_ < 2 ^ 64) :
    ((tickN s 4).state_ = MState.sending ∧
     (tickN s 4).send_pos_ = s.send_pos_ + 4 ∧
     (tickN s 4).send_bits_ = s.send_bits_ - 1 ∧
     (tickN s 4).code_ext_ = s.code_ext_) ∧
    ((tickN s 4).mask_bit_ = if e = 0 then 2 ^ 31 else 2 ^ (e - 1)) ∧
    ((tickN s 4).code_ = if e = 0 then s.code_ext_ else s.code_) ∧
    ((tickN s 1).state_ = MState.sending ∧ (tickN s 2).state_ = MState.sending ∧
     (tickN s 3).state_ = MState.sending) ∧
    (opsAt s 0 = firstOps s ++
        [Op.setLow (if s.code_.testBit e then Line.d1 else Line.d0)] ∧
     opsAt s 1 = [Op.setHigh Line.d0, Op.setHigh Line.d1] ∧
     opsAt s 2 = [] ∧ opsAt s 3 = []) ∧
    pulsesUpTo s 4 = 1 := by
  have hpow31 : (2 : Nat) ^ 31 ≠ 0 := (pow_pos (by norm_num) _).ne'
  have hpowe : (2 : Nat) ^ (e - 1) ≠ 0 := (pow_pos (by norm_num) _).ne'
  have t1 := tick_phase0 s hst hp4
  have e1 : tickN s 1 = (tick s).1 := rfl
  have h1state : (tickN s 1).state_ = MState.sending := by
    rw [e1, t1]; simp [hst]
  have h1pos : (tickN s 1).send_pos_ = s.send_pos_ + 1 := by
    rw [e1, t1]; simp; omega
  have h1bits : (tickN s 1).send_bits_ = s.send_bits_ := by
    rw [e1, t1]; simp
  have h1ext : (tickN s 1).code_ext_ = s.code_ext_ := by
    rw [e1, t1]; simp
  have h1mask : (tickN s 1).mask_bit_ = if e = 0 then 2 ^ 31 else 2 ^ (e - 1) := by
    rw [e1, t1, tickTail_mask_bit_]
    simp only [hmask]
    show (if (2 ^ e : Nat) >>> 1 = 0 then 2 ^ 31 else (2 ^ e : Nat) >>> 1) = _
    rw [two_pow_shiftRight_one]
    by_cases he : e = 0 <;> simp [he, hpowe]
  have h1code : (tickN s 1).code_ = if e = 0 then s.code_ext_ else s.code_ := by
    rw [e1, t1, tickTail_code_]
    simp only [hmask]
    show (if (2 ^ e : Nat) >>> 1 = 0 then _ else _) = _
    rw [two_pow_shiftRight_one]
    by_cases he : e = 0 <;> simp [he, hpowe]
  have h1maskne : (tickN s 1).mask_bit_ ≠ 0 := by
    rw [h1mask]; by_cases he : e = 0 <;> simp [he, hpow31, hpowe]
  have h2pre : (tickN s 1).send_pos_ % 4 = 1 := by rw [h1pos]; omega
  have h2dec : decr64 (tickN s 1).send_bits_ ≠ 0 := by
    rw [h1bits, decr64_eq _ (by omega) hblt]; omega
  have t2 := tick_phase1_cont (tickN s 1) h1state h2pre h2dec
  have e2 : tickN s 2 = (tick (tickN s 1)).1 := rfl
  have h2state : (tickN s 2).state_ = MState.sending := by
    rw [e2, t2]; simp [h1state]
  have h2pos : (tickN s 2).send_pos_ = s.send_pos_ + 2 := by
    rw [e2, t2]; simp [h1pos]; omega
  have h2bits : (tickN s 2).send_bits_ = s.send_bits_ - 1 := by
    rw [e2, t2]; simp [h1bits, decr64_eq _ (by omega) hblt]
  have h2ext : (tickN s 2).code_ext_ = s.code_ext_ := by
    rw [e2, t2]; simp [h1ext]
  have h2mask : (tickN s 2).mask_bit_ = (tickN s 1).mask_bit_ := by
    rw [e2, t2, tickTail_mask_bit_]
    simp [h1maskne]
  have h2code : (tickN s 2).code_ = (tickN s 1).code_ := by
    rw [e2, t2, tickTail_code_]
    simp [h1maskne]
  have h2maskne : (tickN s 2).mask_bit_ ≠ 0 := by rw [h2mask]; exact h1maskne
  have h3pre0 : (tickN s 2).send_pos_ % 4 ≠ 0 := by rw [h2pos]; omega
  have h3pre1 : (tickN s 2).send_pos_ % 4 ≠ 1 := by rw [h2pos]; omega
  have t3 := tick_gap (tickN s 2) h2state h3pre0 h3pre1
  have e3 : tickN s 3 = (tick (tickN s 2)).1 := rfl
  have h3state : (tickN s 3).state_ = MState.sending := by
    rw [e3, t3]; simp [h2state]
  have h3pos : (tickN s 3).send_pos_ = s.send_pos_ + 3 := by
    rw [e3, t3]; simp [h2pos]; omega
  have h3bits : (tickN s 3).send_bits_ = s.send_bits_ - 1 := by
    rw [e3, t3]; simp [h2bits]
  have h3ext : (tickN s 3).code_ext_ = s.code_ext_ := by
    rw [e3, t3]; simp [h2ext]
  have h3mask : (tickN s 3).mask_bit_ = (tickN s 1).mask_bit_ := by
    rw [e3, t3, tickTail_mask_bit_, if_neg h2maskne, h2mask]
  have h3code : (tickN s 3).code_ = (tickN s 2).code_ := by
    rw [e3, t3, tickTail_code_]
    simp [h2maskne]
  have h3maskne : (tickN s 3).mask_bit_ ≠ 0 := by rw [h3mask]; exact h1maskne
  have h4pre0 : (tickN s 3).send_pos_ % 4 ≠ 0 := by rw [h3pos]; omega
  have h4pre1 : (tickN s 3).send_pos_ % 4 ≠ 1 := by rw [h3pos]; omega
  have t4 := tick_gap (tickN s 3) h3state h4pre0 h4pre1
  have e4 : tickN s 4 = (tick (tickN s 3)).1 := rfl
  have h4state : (tickN s 4).state_ = MState.sending := by
    rw [e4, t4]; simp [h3state]
  have h4pos : (tickN s 4).send_pos_ = s.send_pos_ + 4 := by
    rw [e4, t4]; simp [h3pos]; omega
  have h4bits : (tickN s 4).send_bits_ = s.send_bits_ - 1 := by
    rw [e4, t4]; simp [h3bits]
  have h4ext : (tickN s 4).code_ext_ = s.code_ext_ := by
    rw [e4, t4]; simp [h3ext]
  have h4mask : (tickN s 4).mask_bit_ = if e = 0 then 2 ^ 31 else 2 ^ (e - 1) := by
    rw [e4, t4, tickTail_mask_bit_, if_neg h3maskne, h3mask, h1mask]
  have h4code : (tickN s 4).code_ = if e = 0 then s.code_ext_ else s.code_ := by
    rw [e4, t4, tickTail_code_]
    rw [if_neg h3maskne, h3code, h2code, h1code]
  have ops0 : opsAt s 0 = firstOps s ++
      [Op.setLow (if s.code_.testBit e then Line.d1 else Line.d0)] := by
    have : opsAt s 0 = (tick s).2 := rfl
    rw [this, t1, write_bit_snd]
    cases hbit : s.code_.testBit e with
    | false =>
        have hz : s.code_ &&& s.mask_bit_ = 0 := by
          rw [hmask]; exact (and_two_pow_eq_zero_iff _ _).mpr hbit
        simp [hz]
    | true =>
        have hz : s.code_ &&& s.mask_bit_ ≠ 0 := by
          rw [hmask]
          intro h0
          rw [and_two_pow_eq_zero_iff] at h0
          rw [h0] at hbit
          cases hbit
        simp [hz]
  have ops1 : opsAt s 1 = [Op.setHigh Line.d0, Op.setHigh Line.d1] := by
    have : opsAt s 1 = (tick (tickN s 1)).2 := rfl
    rw [this, t2]
  have ops2 : opsAt s 2 = [] := by
    have : opsAt s 2 = (tick (tickN s 2)).2 := rfl
    rw [this, t3]
  have ops3 : opsAt s 3 = [] := by
    have : opsAt s 3 = (tick (tickN s 3)).2 := rfl
    rw [this, t4]
  refine ⟨⟨h4state, h4pos, h4bits, h4ext⟩, h4mask, h4code,
    ⟨h1state, h2state, h3state⟩, ⟨ops0, ops1, ops2, ops3⟩, ?_⟩
  show pulsesUpTo s 3 + countLow (opsAt s 3) = 1
  rw [ops3]
  show pulsesUpTo s 2 + countLow (opsAt s 2) + countLow [] = 1
  rw [ops2]
  show pulsesUpTo s 1 + countLow (opsAt s 1) + countLow [] + countLow [] = 1
  rw [ops1]
  show pulsesUpTo s 0 + countLow (opsAt s 0) + _ + _ + _ = 1
  rw [ops0, countLow_append, countLow_firstOps]
  simp [pulsesUpTo]

/-- The final bit of a job: with one remaining bit, the phase-0 tick emits
its pulse and the phase-1 tick releases both lines, switches both pins to
input, and returns to IDLE. -/
lemma two_ticks_last (s : S) (e : Nat)
    (hst : s.state_ = MState.sending)
    (hp4 : s.send_pos_ % 4 = 0)
    (hplt : s.send_pos_ + 2 < 2 ^ 64)
    (hmask : s.mask_bit_ = 2 ^ e)
    (hb1 : s.send_bits_ = 1) :
    ((tickN s 2).state_ = MState.idle ∧
     (tickN s 2).d0.mode = PMode.input ∧ (tickN s 2).d1.mode = PMode.input) ∧
    (tickN s 1).state_ = MState.sending ∧
    (opsAt s 0 = firstOps s ++
        [Op.setLow (if s.code_.testBit e then Line.d1 else Line.d0)] ∧
     opsAt s 1 = [Op.setHigh Line.d0, Op.setHigh Line.d1,
                  Op.input Line.d0, Op.input Line.d1]) ∧
    pulsesUpTo s 2 = 1 := by
  have t1 := tick_phase0 s hst hp4
  have e1 : tickN s 1 = (tick s).1 := rfl
  have h1state : (tickN s 1).state_ = MState.sending := by
    rw [e1, t1]; simp [hst]
  have h1pos : (tickN s 1).send_pos_ = s.send_pos_ + 1 := by
    rw [e1, t1]; simp; omega
  have h1bits : (tickN s 1).send_bits_ = s.send_bits_ := by
    rw [e1, t1]; simp
  have h2pre : (tickN s 1).send_pos_ % 4 = 1 := by rw [h1pos]; omega
  have h2dec : decr64 (tickN s 1).send_bits_ = 0 := by
    rw [h1bits, hb1, decr64_eq 1 (by omega) (by norm_num)]
  have t2 := tick_phase1_done (tickN s 1) h1state h2pre h2dec
  have e2 : tickN s 2 = (tick (tickN s 1)).1 := rfl
  have h2state : (tickN s 2).state_ = MState.idle := by
    rw [e2, t2]
  have h2d0 : (tickN s 2).d0.mode = PMode.input := by
    rw [e2, t2]; rfl
  have h2d1 : (tickN s 2).d1.mode = PMode.input := by
    rw [e2, t2]; rfl
  have ops0 : opsAt s 0 = firstOps s ++
      [Op.setLow (if s.code_.testBit e then Line.d1 else Line.d0)] := by
    have : opsAt s 0 = (tick s).2 := rfl
    rw [this, t1, write_bit_snd]
    cases hbit : s.code_.testBit e with
    | false =>
        have hz : s.code_ &&& s.mask_bit_ = 0 := by
          rw [hmask]; exact (and_two_pow_eq_zero_iff _ _).mpr hbit
        simp [hz]
    | true =>
        have hz : s.code_ &&& s.mask_bit_ ≠ 0 := by
          rw [hmask]
          intro h0
          rw [and_two_pow_eq_zero_iff] at h0
          rw [h0] at hbit
          cases hbit
        simp [hz]
  have ops1 : opsAt s 1 = [Op.setHigh Line.d0, Op.setHigh Line.d1,
      Op.input Line.d0, Op.input Line.d1] := by
    have : opsAt s 1 = (tick (tickN s 1)).2 := rfl
    rw [this, t2]
  refine ⟨⟨h2state, h2d0, h2d1⟩, h1state, ⟨ops0, ops1⟩, ?_⟩
  show pulsesUpTo s 1 + countLow (opsAt s 1) = 1
  rw [ops1]
  show pulsesUpTo s 0 + countLow (opsAt s 0) + _ = 1
  rw [ops0, countLow_append, countLow_firstOps]
  simp [pulsesUpTo]

/-- One non-final bit preserves the invariant, advancing to bit k+1, and
performs exactly the operations opsFor prescribes for ticks
4(k-1) .. 4(k-1)+3. -/
lemma stepBit (c n k : Nat) (s : S) (hn : n ≤ 64) (hk1 : 1 ≤ k) (hkn : k < n)
    (h : Inv c n k s) :
    Inv c n (k + 1) (tickN s 4) ∧
    ((tickN s 1).state_ = MState.sending ∧ (tickN s 2).state_ = MState.sending ∧
     (tickN s 3).state_ = MState.sending) ∧
    (opsAt s 0 = opsFor c n (4 * (k - 1)) ∧
     opsAt s 1 = opsFor c n (4 * (k - 1) + 1) ∧
     opsAt s 2 = opsFor c n (4 * (k - 1) + 2) ∧
     opsAt s 3 = opsFor c n (4 * (k - 1) + 3)) ∧
    pulsesUpTo s 4 = 1 := by
  obtain ⟨hst, hpos, hbits, hd⟩ := h
  have hp4 : s.send_pos_ % 4 = 0 := by rw [hpos]; omega
  have hplt : s.send_pos_ + 4 < 2 ^ 64 := by rw [hpos]; omega
  have hb2 : 2 ≤ s.send_bits_ := by rw [hbits]; omega
  have hblt : s.send_bits_ < 2 ^ 64 := by rw [hbits]; omega
  have hfo : firstOps s = if k = 1 then [Op.output Line.d0, Op.output Line.d1] else [] := by
    unfold firstOps
    rw [hpos]
    exact if_congr (by omega) rfl rfl
  rcases hd with ⟨h32, hk32, hcode, hext, hmask⟩ | ⟨hcond, hcode, hmask⟩
  · -- wide job, primary (high) word active
    obtain ⟨hf, hmask4, hcode4, hstates, hops4, hpulse⟩ :=
      four_ticks s (n - 32 - k) hst hp4 hplt hmask hb2 hblt
    have hbit : s.code_.testBit (n - 32 - k) = c.testBit (n - k) := by
      rw [hcode, testBit_high_word c (n - 32 - k) (by omega)]
      congr 1
      omega
    refine ⟨?_, hstates, ⟨?_, ?_, ?_, ?_⟩, hpulse⟩
    · refine ⟨hf.1, ?_, ?_, ?_⟩
      · rw [hf.2.1, hpos]; omega
      · rw [hf.2.2.1, hbits]; omega
      · by_cases hlast : k = n - 32
        · -- primary word exhausted: swap in the extension word
          right
          have he0 : n - 32 - k = 0 := by omega
          refine ⟨by omega, ?_, ?_⟩
          · rw [hcode4, if_pos he0]
            exact hext
          · rw [hmask4, if_pos he0]
            congr 1
            omega
        · -- still inside the primary word
          left
          have he0 : n - 32 - k ≠ 0 := by omega
          refine ⟨h32, by omega, ?_, ?_, ?_⟩
          · rw [hcode4, if_neg he0]
            exact hcode
          · rw [hf.2.2.2]
            exact hext
          · rw [hmask4, if_neg he0]
            congr 1
    · rw [hops4.1, opsFor_p0 c n k hk1, hfo, hbit]
    · rw [hops4.2.1, opsFor_p1 c n k hk1, if_neg (by omega)]
      rfl
    · rw [hops4.2.2.1, opsFor_p2]
    · rw [hops4.2.2.2, opsFor_p3]
  · -- low word active
    obtain ⟨hf, hmask4, hcode4, hstates, hops4, hpulse⟩ :=
      four_ticks s (n - k) hst hp4 hplt hmask hb2 hblt
    have hbit : s.code_.testBit (n - k) = c.testBit (n - k) := by
      rw [hcode, testBit_low_word c (n - k) (by omega)]
    have he0 : n - k ≠ 0 := by omega
    refine ⟨?_, hstates, ⟨?_, ?_, ?_, ?_⟩, hpulse⟩
    · refine ⟨hf.1, ?_, ?_, ?_⟩
      · rw [hf.2.1, hpos]; omega
      · rw [hf.2.2.1, hbits]; omega
      · right
        refine ⟨by omega, ?_, ?_⟩
        · rw [hcode4, if_neg he0]
          exact hcode
        · rw [hmask4, if_neg he0]
          congr 1
    · rw [hops4.1, opsFor_p0 c n k hk1, hfo, hbit]
    · rw [hops4.2.1, opsFor_p1 c n k hk1, if_neg (by omega)]
      rfl
    · rw [hops4.2.2.1, opsFor_p2]
    · rw [hops4.2.2.2, opsFor_p3]

/-- Master run lemma: from the invariant at bit k with m = n - k bits after
the current one, the remaining 4m+2 ticks stay in SENDING, perform exactly
the operations opsFor prescribes, emit m+1 pulses, and end in IDLE with
both pins set to input. -/
lemma runInv (c n : Nat) (hn : n ≤ 64) :
    ∀ m k s, 1 ≤ k → k + m = n → Inv c n k s →
      ((tickN s (4 * m + 2)).state_ = MState.idle ∧
       (tickN s (4 * m + 2)).d0.mode = PMode.input ∧
       (tickN s (4 * m + 2)).d1.mode = PMode.input) ∧
      (∀ j, j < 4 * m + 2 → (tickN s j).state_ = MState.sending) ∧
      (∀ i, i < 4 * m + 2 → opsAt s i = opsFor c n (4 * (k - 1) + i)) ∧
      pulsesUpTo s (4 * m + 2) = m + 1 := by
  intro m
  induction m with
  | zero =>
      intro k s hk1 hkn hInv
      have hkeq : k = n := by omega
      obtain ⟨hst, hpos, hbits, hd⟩ := hInv
      have hnn : n - k = 0 := by omega
      have hmc : s.mask_bit_ = 2 ^ 0 ∧ s.code_ = c % 2 ^ 32 := by
        rcases hd with ⟨h32, hk32, -, -, -⟩ | ⟨-, hcode, hmask⟩
        · omega
        · rw [hmask, hnn]
          exact ⟨rfl, hcode⟩
      have hp4 : s.send_pos_ % 4 = 0 := by rw [hpos]; omega
      have hplt : s.send_pos_ + 2 < 2 ^ 64 := by rw [hpos]; omega
      have hb1 : s.send_bits_ = 1 := by rw [hbits]; omega
      obtain ⟨hidle, h1state, ⟨ops0, ops1⟩, hpulse⟩ :=
        two_ticks_last s 0 hst hp4 hplt hmc.1 hb1
      have hfo : firstOps s =
          if k = 1 then [Op.output Line.d0, Op.output Line.d1] else [] := by
        unfold firstOps
        rw [hpos]
        exact if_congr (by omega) rfl rfl
      refine ⟨hidle, ?_, ?_, hpulse⟩
      · intro j hj
        interval_cases j
        · exact hst
        · exact h1state
      · intro i hi
        interval_cases i
        · show opsAt s 0 = opsFor c n (4 * (k - 1) + 0)
          rw [Nat.add_zero, ops0, opsFor_p0 c n k hk1, hfo, hnn, hmc.2,
            testBit_low_word c 0 (by omega)]
        · show opsAt s 1 = opsFor c n (4 * (k - 1) + 1)
          rw [ops1, opsFor_p1 c n k hk1, if_pos hkeq]
          rfl
  | succ m ih =>
      intro k s hk1 hkn hInv
      have hkn' : k < n := by omega
      obtain ⟨hInv', hstates, hops, hpulse⟩ := stepBit c n k s hn hk1 hkn' hInv
      obtain ⟨hidle, hsend, hopsIH, hpulseIH⟩ :=
        ih (k + 1) (tickN s 4) (by omega) (by omega) hInv'
      have hsplit : 4 * (m + 1) + 2 = 4 + (4 * m + 2) := by omega
      refine ⟨?_, ?_, ?_, ?_⟩
      · rw [hsplit, tickN_add]
        exact hidle
      · intro j hj
        by_cases hj4 : j < 4
        · interval_cases j
          · exact hInv.1
          · exact hstates.1
          · exact hstates.2.1
          · exact hstates.2.2
        · have h4 : j = 4 + (j - 4) := by omega
          rw [h4, tickN_add]
          exact hsend (j - 4) (by omega)
      · intro i hi
        by_cases hi4 : i < 4
        · interval_cases i
          · rw [Nat.add_zero]
            exact hops.1
          · exact hops.2.1
          · exact hops.2.2.1
          · exact hops.2.2.2
        · have h4 : i = 4 + (i - 4) := by omega
          rw [h4, opsAt_add, hopsIH (i - 4) (by omega)]
          congr 1
          omega
      · rw [hsplit, pulsesUpTo_add, hpulse, hpulseIH]
        omega

set_option maxRecDepth 20000 in
/-- An accepted send from IDLE returns true and establishes the invariant
at bit 1. -/
lemma send_establishes (c n : Nat) (s0 : S) (h1 : 1 ≤ n) (h64 : n ≤ 64)
    (h0 : s0.state_ = MState.idle) :
    (send c n s0).1 = true ∧ Inv c n 1 (send c n s0).2 := by
  have hna : n % 2 ^ 64 = n := Nat.mod_eq_of_lt (by omega)
  unfold send
  rw [if_neg (by rw [h0]; simp)]
  simp only [hna]
  by_cases h32 : 32 < n
  · rw [if_pos h32]
    refine ⟨rfl, rfl, rfl, show n = n - 1 + 1 by omega,
      Or.inl ⟨h32, by omega, rfl, rfl, ?_⟩⟩
    show shl1u32 (n - 1 - 32) = 2 ^ (n - 32 - 1)
    unfold shl1u32
    rw [if_pos (by omega)]
    exact congrArg (fun t => 2 ^ t) (by omega)
  · rw [if_neg h32]
    rw [decr64_eq n h1 (by omega)]
    refine ⟨rfl, rfl, rfl, show n = n - 1 + 1 by omega, Or.inr ⟨by omega, rfl, ?_⟩⟩
    show shl1u32 (n - 1) = 2 ^ (n - 1)
    unfold shl1u32
    rw [if_pos (by omega)]

/-- Position of the invariant along a run: at the start of bit k the state
is tickN s1 (4*(k-1)). -/
lemma inv_at (c n : Nat) (hn : n ≤ 64) (s1 : S) (hInv : Inv c n 1 s1) :
    ∀ k, 1 ≤ k → k ≤ n → Inv c n k (tickN s1 (4 * (k - 1))) := by
  intro k
  induction k with
  | zero => intro h1 _; exact absurd h1 (by omega)
  | succ k ih =>
      intro h1 hkn
      by_cases hk0 : k = 0
      · subst hk0
        simpa using hInv
      · have hk1 : 1 ≤ k := by omega
        have hprev := ih hk1 (by omega)
        have hstep := (stepBit c n k _ hn hk1 (by omega) hprev).1
        have heq : tickN (tickN s1 (4 * (k - 1))) 4 = tickN s1 (4 * (k + 1 - 1)) := by
          rw [← tickN_add]
          congr 1
          omega
        rwa [heq] at hstep

/-- A tick in a non-sending state performs no operation. -/
lemma opsAt_idle (u : S) (h : u.state_ = MState.idle) (d : Nat) : opsAt u d = [] := by
  unfold opsAt
  rw [tickN_idle u h d, tick_not_sending u (by rw [h]; intro hc; cases hc)]

/-- The pulse-sequence contract of one accepted n-bit transmission of code
c from state s (the state just after the accepted send): during phase 0 of
each bit k exactly one line is driven low -- D1 if bit n-k of c is 1, D0 if
it is 0 -- (with both pins switched to output mode first on the very first
tick); phase 1 of every bit releases both lines high; phases 2 and 3
perform no operation; phase 1 of the final bit additionally switches both
pins to input; the machine is still SENDING strictly before tick
4(n-1)+2 and is IDLE with both pins in input mode exactly then. -/
def SendTraceSpec (c n : Nat) (s : S) : Prop :=
  (∀ k, 1 ≤ k → k ≤ n → opsAt s (4 * (k - 1)) =
      (if k = 1 then [Op.output Line.d0, Op.output Line.d1] else []) ++
        [Op.setLow (if c.testBit (n - k) then Line.d1 else Line.d0)]) ∧
  (∀ k, 1 ≤ k → k < n → opsAt s (4 * (k - 1) + 1) =
      [Op.setHigh Line.d0, Op.setHigh Line.d1]) ∧
  (∀ k, 1 ≤ k → k < n →
      opsAt s (4 * (k - 1) + 2) = [] ∧ opsAt s (4 * (k - 1) + 3) = []) ∧
  opsAt s (4 * (n - 1) + 1) =
    [Op.setHigh Line.d0, Op.setHigh Line.d1, Op.input Line.d0, Op.input Line.d1] ∧
  (∀ j, j < 4 * (n - 1) + 2 → (tickN s j).state_ = MState.sending) ∧
  (tickN s (4 * (n - 1) + 2)).state_ = MState.idle ∧
  (tickN s (4 * (n - 1) + 2)).d0.mode = PMode.input ∧
  (tickN s (4 * (n - 1) + 2)).d1.mode = PMode.input

/-- C1: for every accepted send(code, bitCount) with 1 <= bitCount <= 64,
the tick sequence drives exactly one line low (D1 for a 1 bit, D0 for a 0
bit) during phase 0 of each bit, releases both lines high during phase 1 of
every bit, performs no line operation during phases 2-3, sets both pins to
input and returns to IDLE immediately after phase 1 of the final bit, after
exactly 4*(bitCount-1) + 2 tick calls in total. -/
theorem send_pulse_sequence (c n : Nat) (s0 : S)
    (h1 : 1 ≤ n) (h64 : n ≤ 64) (h0 : s0.state_ = MState.idle) :
    (send c n s0).1 = true ∧ SendTraceSpec c n (send c n s0).2 := by
  obtain ⟨hacc, hInv⟩ := send_establishes c n s0 h1 h64 h0
  obtain ⟨hidle, hsend, hops, -⟩ :=
    runInv c n h64 (n - 1) 1 (send c n s0).2 le_rfl (by omega) hInv
  have hops' : ∀ i, i < 4 * (n - 1) + 2 →
      opsAt (send c n s0).2 i = opsFor c n i := by
    intro i hi
    have h := hops i hi
    simpa using h
  refine ⟨hacc, ?_, ?_, ?_, ?_, hsend, hidle.1, hidle.2.1, hidle.2.2⟩
  · intro k hk1 hkn
    rw [hops' (4 * (k - 1)) (by omega), opsFor_p0 c n k hk1]
  · intro k hk1 hkn
    rw [hops' (4 * (k - 1) + 1) (by omega), opsFor_p1 c n k hk1, if_neg (by omega)]
    rfl
  · intro k hk1 hkn
    exact ⟨by rw [hops' (4 * (k - 1) + 2) (by omega), opsFor_p2],
           by rw [hops' (4 * (k - 1) + 3) (by omega), opsFor_p3]⟩
  · rw [hops' (4 * (n - 1) + 1) (by omega), opsFor_p1 c n n h1, if_pos rfl]
    rfl

/-- C3: send called while a transmission is in flight (state not IDLE)
returns false and changes nothing: the in-flight job's code words, bit
mask, position and remaining-bit counters, the state and both pins are all
left exactly as they were, and no line operation is performed. -/
theorem send_busy_rejected (c n : Nat) (s : S) (h : s.state_ ≠ MState.idle) :
    send c n s = (false, s) := by
  unfold send
  rw [if_pos h]

/-- C4: for every accepted send with 32 < bitCount <= 64, the primary
32-bit word (high bits of code, initial mask 2^(bitCount-1-32)) is drained
first: at the start of each of the first bitCount-32 bits the active code
is the high word and the mask is the corresponding falling power of two,
reaching 2^0 at bit bitCount-32; during that bit's phase-0 tick the mask
becomes 0, whereupon tick resets it to the top bit of a 32-bit word (2^31)
and swaps the extension word in as the active code; and the total number of
low pulses over the whole transmission equals bitCount. -/
theorem wide_send_carry_over (c n : Nat) (s0 : S)
    (h32 : 32 < n) (h64 : n ≤ 64) (h0 : s0.state_ = MState.idle) :
    (send c n s0).1 = true ∧
    (∀ k, 1 ≤ k → k ≤ n - 32 →
        (tickN (send c n s0).2 (4 * (k - 1))).code_ = (c >>> 32) % 2 ^ 32 ∧
        (tickN (send c n s0).2 (4 * (k - 1))).mask_bit_ = 2 ^ (n - 32 - k)) ∧
    (tickN (send c n s0).2 (4 * (n - 32 - 1) + 1)).mask_bit_ = 2 ^ 31 ∧
    (tickN (send c n s0).2 (4 * (n - 32 - 1) + 1)).code_ = c % 2 ^ 32 ∧
    pulsesUpTo (send c n s0).2 (4 * (n - 1) + 2) = n := by
  obtain ⟨hacc, hInv⟩ := send_establishes c n s0 (by omega) h64 h0
  have hInvAt := inv_at c n h64 (send c n s0).2 hInv
  have hprim : ∀ k, 1 ≤ k → k ≤ n - 32 →
      (tickN (send c n s0).2 (4 * (k - 1))).code_ = (c >>> 32) % 2 ^ 32 ∧
      (tickN (send c n s0).2 (4 * (k - 1))).mask_bit_ = 2 ^ (n - 32 - k) := by
    intro k hk1 hk32
    obtain ⟨-, -, -, hd⟩ := hInvAt k hk1 (by omega)
    rcases hd with ⟨-, -, hcode, -, hmask⟩ | ⟨hcond, -, -⟩
    · exact ⟨hcode, hmask⟩
    · rcases hcond with h | h <;> omega
  obtain ⟨hst, hpos, -, hd⟩ := hInvAt (n - 32) (by omega) (by omega)
  have hA : (tickN (send c n s0).2 (4 * (n - 32 - 1))).code_ext_ = c % 2 ^ 32 ∧
      (tickN (send c n s0).2 (4 * (n - 32 - 1))).mask_bit_ = 2 ^ 0 := by
    rcases hd with ⟨-, -, -, hext, hmask⟩ | ⟨hcond, -, -⟩
    · refine ⟨hext, ?_⟩
      rw [hmask]
      exact congrArg (fun t => 2 ^ t) (by omega)
    · rcases hcond with h | h <;> omega
  have hp4 : (tickN (send c n s0).2 (4 * (n - 32 - 1))).send_pos_ % 4 = 0 := by
    rw [hpos]; omega
  have t1 := tick_phase0 _ hst hp4
  have e1 : tickN (send c n s0).2 (4 * (n - 32 - 1) + 1) =
      (tick (tickN (send c n s0).2 (4 * (n - 32 - 1)))).1 := rfl
  have hm : (tickN (send c n s0).2 (4 * (n - 32 - 1))).mask_bit_ >>> 1 = 0 := by
    rw [hA.2]
    rfl
  refine ⟨hacc, hprim, ?_, ?_, ?_⟩
  · rw [e1, t1, tickTail_mask_bit_]
    simp [hm]
  · rw [e1, t1, tickTail_code_]
    simp [hm, hA.1]
  · obtain ⟨-, -, -, hpulse⟩ :=
      runInv c n h64 (n - 1) 1 (send c n s0).2 le_rfl (by omega) hInv
    rw [hpulse]
    omega

/-- C8: history independence.  Starting from any two IDLE states -- which
may hold different residual values of code_, code_ext_, mask_bit_,
send_pos_ and send_bits_ left over from earlier transmissions -- an
accepted send of the same code with the same bitCount (1 <= bitCount <= 64)
followed by ticking produces the identical sequence of line operations at
every tick; in particular the stale extension word swapped into the active
code during the final bit of a narrow job never affects the pulses. -/
theorem send_history_independence (c n : Nat) (s t : S)
    (h1 : 1 ≤ n) (h64 : n ≤ 64)
    (hs : s.state_ = MState.idle) (ht : t.state_ = MState.idle) :
    ∀ i, opsAt (send c n s).2 i = opsAt (send c n t).2 i := by
  intro i
  obtain ⟨-, hIs⟩ := send_establishes c n s h1 h64 hs
  obtain ⟨-, hIt⟩ := send_establishes c n t h1 h64 ht
  obtain ⟨hidleS, -, hopsS, -⟩ :=
    runInv c n h64 (n - 1) 1 (send c n s).2 le_rfl (by omega) hIs
  obtain ⟨hidleT, -, hopsT, -⟩ :=
    runInv c n h64 (n - 1) 1 (send c n t).2 le_rfl (by omega) hIt
  by_cases hi : i < 4 * (n - 1) + 2
  · rw [hopsS i hi, hopsT i hi]
  · have hiN : i = (4 * (n - 1) + 2) + (i - (4 * (n - 1) + 2)) := by omega
    rw [hiN, opsAt_add, opsAt_add,
      opsAt_idle _ hidleS.1 _, opsAt_idle _ hidleT.1 _]

lemma mod64_mod4 (p : Nat) : (p % 2 ^ 64) % 4 = p % 4 :=
  Nat.mod_mod_of_dvd p (by norm_num)

/-- Four ticks from any sending state at phase 2 with at least two
remaining bits stay in SENDING and decrement the remaining-bit counter by
exactly one (one phase-1 tick per four consecutive ticks). -/
lemma four_tick_keep (s : S)
    (hst : s.state_ = MState.sending) (hp : s.send_pos_ % 4 = 2)
    (hb2 : 2 ≤ s.send_bits_) (hblt : s.send_bits_ < 2 ^ 64) :
    (tickN s 4).state_ = MState.sending ∧
    (tickN s 4).send_pos_ % 4 = 2 ∧
    (tickN s 4).send_bits_ = s.send_bits_ - 1 := by
  have t1 := tick_gap s hst (by omega) (by omega)
  have e1 : tickN s 1 = (tick s).1 := rfl
  have h1st : (tickN s 1).state_ = MState.sending := by rw [e1, t1]; simp [hst]
  have h1pos : (tickN s 1).send_pos_ = (s.send_pos_ + 1) % 2 ^ 64 := by
    rw [e1, t1]; simp
  have h1p4 : (tickN s 1).send_pos_ % 4 = 3 := by
    rw [h1pos, mod64_mod4]; omega
  have h1plt : (tickN s 1).send_pos_ < 2 ^ 64 := by
    rw [h1pos]; exact Nat.mod_lt _ (by norm_num)
  have h1bits : (tickN s 1).send_bits_ = s.send_bits_ := by rw [e1, t1]; simp
  have t2 := tick_gap (tickN s 1) h1st (by omega) (by omega)
  have e2 : tickN s 2 = (tick (tickN s 1)).1 := rfl
  have h2st : (tickN s 2).state_ = MState.sending := by rw [e2, t2]; simp [h1st]
  have h2pos : (tickN s 2).send_pos_ = ((tickN s 1).send_pos_ + 1) % 2 ^ 64 := by
    rw [e2, t2]; simp
  have h2p4 : (tickN s 2).send_pos_ % 4 = 0 := by
    rw [h2pos, mod64_mod4]; omega
  have h2plt : (tickN s 2).send_pos_ < 2 ^ 64 := by
    rw [h2pos]; exact Nat.mod_lt _ (by norm_num)
  have h2bits : (tickN s 2).send_bits_ = s.send_bits_ := by rw [e2, t2]; simp [h1bits]
  have t3 := tick_phase0 (tickN s 2) h2st h2p4
  have e3 : tickN s 3 = (tick (tickN s 2)).1 := rfl
  have h3st : (tickN s 3).state_ = MState.sending := by rw [e3, t3]; simp [h2st]
  have h3pos : (tickN s 3).send_pos_ = ((tickN s 2).send_pos_ + 1) % 2 ^ 64 := by
    rw [e3, t3]; simp
  have h3p4 : (tickN s 3).send_pos_ % 4 = 1 := by
    rw [h3pos, mod64_mod4]; omega
  have h3plt : (tickN s 3).send_pos_ < 2 ^ 64 := by
    rw [h3pos]; exact Nat.mod_lt _ (by norm_num)
  have h3bits : (tickN s 3).send_bits_ = s.send_bits_ := by rw [e3, t3]; simp [h2bits]
  have hdec : decr64 (tickN s 3).send_bits_ ≠ 0 := by
    rw [h3bits, decr64_eq _ (by omega) hblt]; omega
  have t4 := tick_phase1_cont (tickN s 3) h3st h3p4 hdec
  have e4 : tickN s 4 = (tick (tickN s 3)).1 := rfl
  refine ⟨?_, ?_, ?_⟩
  · rw [e4, t4]; simp [h3st]
  · rw [e4, t4]
    simp only [tickTail_send_pos_]
    show (((tickN s 3).send_pos_ + 1) % 2 ^ 64) % 4 = 2
    rw [mod64_mod4]; omega
  · rw [e4, t4]
    simp only [tickTail_send_bits_]
    show decr64 (tickN s 3).send_bits_ = s.send_bits_ - 1
    rw [h3bits, decr64_eq _ (by omega) hblt]

/-- The first two ticks of a job queued with a zero bit count: phase 0
emits a (D0) pulse, and phase 1 decrements the remaining-bit counter from
0, wrapping to 2^64 - 1, so the machine stays in SENDING. -/
lemma two_ticks_zero_job (s : S) (hst : s.state_ = MState.sending)
    (hpos : s.send_pos_ = 0) (hbits : s.send_bits_ = 0) :
    (tickN s 2).state_ = MState.sending ∧
    (tickN s 2).send_pos_ = 2 ∧
    (tickN s 2).send_bits_ = 2 ^ 64 - 1 := by
  have hp4 : s.send_pos_ % 4 = 0 := by rw [hpos]
  have t1 := tick_phase0 s hst hp4
  have e1 : tickN s 1 = (tick s).1 := rfl
  have h1st : (tickN s 1).state_ = MState.sending := by rw [e1, t1]; simp [hst]
  have h1pos : (tickN s 1).send_pos_ = 1 := by rw [e1, t1]; simp [hpos]
  have h1bits : (tickN s 1).send_bits_ = 0 := by rw [e1, t1]; simp [hbits]
  have h1p4 : (tickN s 1).send_pos_ % 4 = 1 := by rw [h1pos]
  have hdec : decr64 (tickN s 1).send_bits_ ≠ 0 := by
    rw [h1bits]
    decide
  have t2 := tick_phase1_cont (tickN s 1) h1st h1p4 hdec
  have e2 : tickN s 2 = (tick (tickN s 1)).1 := rfl
  refine ⟨?_, ?_, ?_⟩
  · rw [e2, t2]; simp [h1st]
  · rw [e2, t2]
    simp only [tickTail_send_pos_]
    show ((tickN s 1).send_pos_ + 1) % 2 ^ 64 = 2
    rw [h1pos]
    omega
  · rw [e2, t2]
    simp only [tickTail_send_bits_]
    show decr64 (tickN s 1).send_bits_ = 2 ^ 64 - 1
    rw [h1bits]
    decide

/-- C9: send(code, 0) in the IDLE state is accepted and starts a job with
a zero remaining-bit counter; at the job's first phase-1 tick the counter
is decremented from 0 and wraps to 2^64 - 1 (the maximum of the 64-bit
size_t), so the machine does not return to IDLE after 2 ticks but is still
SENDING at the start of each of the next 2^64 - 3 bit periods, continuing
to emit pulses for on the order of 2^64 further bits. -/
theorem send_zero_bits_wraps (c : Nat) (s0 : S) (h0 : s0.state_ = MState.idle) :
    (send c 0 s0).1 = true ∧
    (send c 0 s0).2.state_ = MState.sending ∧
    (send c 0 s0).2.send_bits_ = 0 ∧
    (tickN (send c 0 s0).2 2).state_ = MState.sending ∧
    (tickN (send c 0 s0).2 2).send_bits_ = 2 ^ 64 - 1 ∧
    (∀ j, j ≤ 2 ^ 64 - 3 →
      (tickN (send c 0 s0).2 (2 + 4 * j)).state_ = MState.sending) := by
  have hm0 : shl1u32 (decr64 0) = 0 := by decide
  have hsend : send c 0 s0 = (true,
      { s0 with code_ := c % 2 ^ 32, mask_bit_ := 0,
                send_pos_ := 0, send_bits_ := 0, state_ := MState.sending }) := by
    unfold send
    rw [if_neg (by rw [h0]; simp)]
    simp only [Nat.zero_mod]
    rw [if_neg (by omega), hm0]
  have hkey : ∀ u : S, u.state_ = MState.sending → u.send_pos_ = 0 →
      u.send_bits_ = 0 →
      (tickN u 2).state_ = MState.sending ∧
      (tickN u 2).send_bits_ = 2 ^ 64 - 1 ∧
      ∀ j, j ≤ 2 ^ 64 - 3 →
        (tickN u (2 + 4 * j)).state_ = MState.sending := by
    intro u hst hpos hbits
    obtain ⟨h2st, h2pos, h2bits⟩ := two_ticks_zero_job u hst hpos hbits
    have h2p4 : (tickN u 2).send_pos_ % 4 = 2 := by rw [h2pos]
    have key : ∀ j, j ≤ 2 ^ 64 - 3 →
        (tickN u (2 + 4 * j)).state_ = MState.sending ∧
        (tickN u (2 + 4 * j)).send_pos_ % 4 = 2 ∧
        (tickN u (2 + 4 * j)).send_bits_ = 2 ^ 64 - 1 - j := by
      intro j
      induction j with
      | zero =>
          intro hj
          refine ⟨by simpa using h2st, by simpa using h2p4, by simpa using h2bits⟩
      | succ j ih =>
          intro hj
          obtain ⟨ha, hb, hc⟩ := ih (by omega)
          have h4 := four_tick_keep _ ha hb (by rw [hc]; omega) (by rw [hc]; omega)
          have heq : tickN u (2 + 4 * (j + 1)) = tickN (tickN u (2 + 4 * j)) 4 := by
            rw [← tickN_add]
            congr 1
          rw [heq]
          exact ⟨h4.1, h4.2.1, by rw [h4.2.2, hc]; omega⟩
    exact ⟨h2st, h2bits, fun j hj => (key j hj).1⟩
  rw [hsend]
  exact ⟨rfl, rfl, rfl, (hkey _ rfl rfl rfl).1, (hkey _ rfl rfl rfl).2.1,
    (hkey _ rfl rfl rfl).2.2⟩

@[simp] lemma write_bit_fst_d0 (v : Nat) (s : S) :
    (write_bit v s).1.d0 = if v = 0 then pinSetLow s.d0 else s.d0 := by
  unfold write_bit; split <;> simp_all

@[simp] lemma write_bit_fst_d1 (v : Nat) (s : S) :
    (write_bit v s).1.d1 = if v = 0 then s.d1 else pinSetLow s.d1 := by
  unfold write_bit; split <;> simp_all

lemma firstOut_d0 (s : S) :
    (firstOut s).d0 = if s.send_pos_ = 0 then pinOutput s.d0 else s.d0 := by
  unfold firstOut outPins; split <;> simp_all

lemma firstOut_d1 (s : S) :
    (firstOut s).d1 = if s.send_pos_ = 0 then pinOutput s.d1 else s.d1 := by
  unfold firstOut outPins; split <;> simp_all

lemma not_drivenLow_pinOutput (p : PinS) : ¬ drivenLow (pinOutput p) := by
  simp [drivenLow, pinOutput]

lemma not_drivenLow_pinSetHigh (p : PinS) : ¬ drivenLow (pinSetHigh p) := by
  simp [drivenLow, pinSetHigh]

lemma not_drivenLow_pinInput (p : PinS) : ¬ drivenLow (pinInput p) := by
  simp [drivenLow, pinInput]

lemma not_drivenLow_input_mode (p : PinS) (h : p.mode = PMode.input) :
    ¬ drivenLow p := by
  simp [drivenLow, h]

/-- Strengthened safety invariant: outside of SENDING both pins are in
input mode; the two pins are never both driven low; and away from the
pulse window (position not at phase 1, i.e. not right after a phase-0
write) neither pin is driven low. -/
def GoodS (s : S) : Prop :=
  (s.state_ ≠ MState.sending → s.d0.mode = PMode.input ∧ s.d1.mode = PMode.input) ∧
  ¬(drivenLow s.d0 ∧ drivenLow s.d1) ∧
  (s.send_pos_ % 4 ≠ 1 → ¬ drivenLow s.d0 ∧ ¬ drivenLow s.d1)

lemma reachable_good {s : S} (h : Reachable s) : GoodS s := by
  induction h with
  | init =>
      refine ⟨fun _ => ⟨rfl, rfl⟩, ?_, fun _ => ?_⟩
      · rintro ⟨h0, -⟩
        exact absurd h0.1 (by intro hc; cases hc)
      · constructor <;> exact not_drivenLow_input_mode _ rfl
  | step_send c n hr ih =>
      rename_i s'
      by_cases hidle : s'.state_ = MState.idle
      · have hin := ih.1 (by rw [hidle]; intro hc; cases hc)
        have hd0 : ¬ drivenLow s'.d0 := not_drivenLow_input_mode _ hin.1
        have hd1 : ¬ drivenLow s'.d1 := not_drivenLow_input_mode _ hin.2
        unfold send
        rw [if_neg (by rw [hidle]; simp)]
        by_cases h32 : 32 < n % 2 ^ 64
        · rw [if_pos h32]
          exact ⟨fun hns => absurd rfl hns, fun hb => hd0 hb.1, fun _ => ⟨hd0, hd1⟩⟩
        · rw [if_neg h32]
          exact ⟨fun hns => absurd rfl hns, fun hb => hd0 hb.1, fun _ => ⟨hd0, hd1⟩⟩
      · rw [send_busy_rejected c n _ hidle]
        exact ih
  | step_tick hr ih =>
      rename_i s'
      by_cases hst : s'.state_ = MState.sending
      · have h4 : s'.send_pos_ % 4 = 0 ∨ s'.send_pos_ % 4 = 1 ∨
            s'.send_pos_ % 4 = 2 ∨ s'.send_pos_ % 4 = 3 := by omega
        rcases h4 with h4 | h4 | h4 | h4
        · -- phase 0: one line is driven low from a state where both are
          -- released (or both just switched to output, released high)
          have hu : (tick s').1 = tickTail
              { (write_bit (s'.code_ &&& s'.mask_bit_) (firstOut s')).1 with
                  mask_bit_ := s'.mask_bit_ >>> 1 } := by
            rw [tick_phase0 s' hst h4]
          rw [hu]
          have hd0 : ¬ drivenLow (firstOut s').d0 := by
            rw [firstOut_d0]
            split
            · exact not_drivenLow_pinOutput _
            · exact (ih.2.2 (by omega)).1
          have hd1 : ¬ drivenLow (firstOut s').d1 := by
            rw [firstOut_d1]
            split
            · exact not_drivenLow_pinOutput _
            · exact (ih.2.2 (by omega)).2
          refine ⟨fun hns => absurd ?_ hns, ?_, fun hp1 => absurd ?_ hp1⟩
          · simp [hst]
          · rintro ⟨hl0, hl1⟩
            simp only [tickTail_d0, tickTail_d1, write_bit_fst_d0, write_bit_fst_d1] at hl0 hl1
            by_cases hv : s'.code_ &&& s'.mask_bit_ = 0
            · rw [if_pos hv] at hl1
              exact hd1 hl1
            · rw [if_neg hv] at hl0
              exact hd0 hl0
          · simp only [tickTail_send_pos_, write_bit_fst_send_pos_,
              firstOut_send_pos_, mod64_mod4]
            omega
        · by_cases hdone : decr64 s'.send_bits_ = 0
          · have hu : (tick s').1 =
                { s' with d0 := pinInput (pinSetHigh s'.d0), d1 := pinInput (pinSetHigh s'.d1)
                        , send_bits_ := 0, state_ := MState.idle } := by
              rw [tick_phase1_done s' hst h4 hdone]
            rw [hu]
            refine ⟨fun _ => ⟨rfl, rfl⟩, ?_, fun _ => ?_⟩
            · rintro ⟨hl0, -⟩
              exact not_drivenLow_pinInput _ hl0
            · exact ⟨not_drivenLow_pinInput _, not_drivenLow_pinInput _⟩
          · have hu : (tick s').1 = tickTail
                { s' with d0 := pinSetHigh s'.d0, d1 := pinSetHigh s'.d1
                        , send_bits_ := decr64 s'.send_bits_ } := by
              rw [tick_phase1_cont s' hst h4 hdone]
            rw [hu]
            refine ⟨fun hns => absurd ?_ hns, ?_, fun _ => ?_⟩
            · simp [hst]
            · rintro ⟨hl0, -⟩
              simp only [tickTail_d0] at hl0
              exact not_drivenLow_pinSetHigh _ hl0
            · constructor
              · simp only [tickTail_d0]
                exact not_drivenLow_pinSetHigh _
              · simp only [tickTail_d1]
                exact not_drivenLow_pinSetHigh _
        · rw [tick_gap s' hst (by omega) (by omega)]
          refine ⟨fun hns => absurd ?_ hns, ?_, fun _ => ?_⟩
          · simp [hst]
          · rintro ⟨hl0, -⟩
            simp only [tickTail_d0] at hl0
            exact (ih.2.2 (by omega)).1 hl0
          · simp only [tickTail_d0, tickTail_d1]
            exact ih.2.2 (by omega)
        · rw [tick_gap s' hst (by omega) (by omega)]
          refine ⟨fun hns => absurd ?_ hns, ?_, fun _ => ?_⟩
          · simp [hst]
          · rintro ⟨hl0, -⟩
            simp only [tickTail_d0] at hl0
            exact (ih.2.2 (by omega)).1 hl0
          · simp only [tickTail_d0, tickTail_d1]
            exact ih.2.2 (by omega)
      · rw [tick_not_sending s' hst]
        exact ih

/-- Any single tick performs at most one driveLow operation. -/
lemma countLow_tick_le (s : S) : countLow (tick s).2 ≤ 1 := by
  by_cases hst : s.state_ = MState.sending
  · have h4 : s.send_pos_ % 4 = 0 ∨ s.send_pos_ % 4 = 1 ∨
        s.send_pos_ % 4 = 2 ∨ s.send_pos_ % 4 = 3 := by omega
    rcases h4 with h4 | h4 | h4 | h4
    · rw [tick_phase0 s hst h4, write_bit_snd]
      show countLow (firstOps s ++ [Op.setLow _]) ≤ 1
      rw [countLow_append, countLow_firstOps, countLow_setLow]
    · by_cases hdone : decr64 s.send_bits_ = 0
      · rw [tick_phase1_done s hst h4 hdone]
        show countLow _ ≤ 1
        rw [countLow_done4]
        omega
      · rw [tick_phase1_cont s hst h4 hdone]
        show countLow _ ≤ 1
        rw [countLow_high2]
        omega
    · rw [tick_gap s hst (by omega) (by omega)]
      show countLow [] ≤ 1
      rw [countLow_nil]
      omega
    · rw [tick_gap s hst (by omega) (by omega)]
      show countLow [] ≤ 1
      rw [countLow_nil]
      omega
  · rw [tick_not_sending s hst]
    show countLow [] ≤ 1
    rw [countLow_nil]
    omega

/-- C6: in every state reachable by any sequence of send and tick calls
from the initial state, the two lines are never both driven low at the same
time, and each tick drives at most one line low.  (That exactly one line --
D0 for a 0 bit, D1 for a 1 bit -- is pulsed per transmitted bit is the
phase-0 clause of SendTraceSpec.) -/
theorem lines_never_both_low (s : S) (h : Reachable s) :
    ¬(drivenLow s.d0 ∧ drivenLow s.d1) ∧ countLow (tick s).2 ≤ 1 :=
  ⟨(reachable_good h).2.1, countLow_tick_le s⟩

/-- C10: whenever a reachable transmitter state is IDLE -- at construction
and after every completed transmission -- both pins are in input (floating)
mode, so the component never drives the bus while idle; reachability
closure under send and tick is exactly preservation of this predicate by
every send and tick call. -/
theorem idle_pins_input (s : S) (h : Reachable s) (hidle : s.state_ = MState.idle) :
    s.d0.mode = PMode.input ∧ s.d1.mode = PMode.input :=
  (reachable_good h).1 (by rw [hidle]; intro hc; cases hc)

/-! ### Encoder: parity attachment and facility/id packing -/

lemma parityLoop_eq : ∀ (m c acc : Nat),
    parityLoop m c acc = (acc ^^^ bitsXor c m, c >>> m) := by
  intro m
  induction m with
  | zero =>
      intro c acc
      simp [parityLoop, bitsXor]
  | succ m ih =>
      intro c acc
      show parityLoop m (c >>> 1) (acc ^^^ (c &&& 1)) = _
      rw [ih (c >>> 1) (acc ^^^ (c &&& 1))]
      show ((acc ^^^ (c &&& 1)) ^^^ bitsXor (c >>> 1) m, (c >>> 1) >>> m) = _
      rw [Nat.xor_assoc, ← Nat.shiftRight_add]
      show (acc ^^^ bitsXor c (m + 1), c >>> (1 + m)) = _
      rw [Nat.add_comm 1 m]

lemma xor_le_one (a b : Nat) (ha : a ≤ 1) (hb : b ≤ 1) : a ^^^ b ≤ 1 := by
  interval_cases a <;> interval_cases b <;> decide

lemma bitsXor_le_one : ∀ (c m : Nat), bitsXor c m ≤ 1 := by
  intro c m
  induction m generalizing c with
  | zero => exact Nat.zero_le 1
  | succ m ih =>
      show (c &&& 1) ^^^ bitsXor (c >>> 1) m ≤ 1
      refine xor_le_one _ _ ?_ (ih (c >>> 1))
      have : c &&& 1 = c % 2 := Nat.and_one_is_mod c
      omega

/-- C2: for every even BITS in the supported range and every raw code,
add_parity returns (code << 1) | (even_parity << (BITS-1)) | odd_parity,
where odd_parity is the XOR of the low BITS/2 - 1 bits of the original raw
code with seed 1 and even_parity is the XOR of the next BITS/2 - 1 bits
above those with seed 0 (bitsXor c m is the XOR of the low m bits of c, so
the even group is bitsXor (code >>> (BITS/2 - 1)) (BITS/2 - 1)). -/
theorem add_parity_parity_layout (BITS c : Nat)
    (hev : BITS % 2 = 0) (h2 : 2 ≤ BITS) (h64 : BITS ≤ 64) :
    add_parity BITS c =
      (c <<< 1) % 2 ^ (if BITS ≤ 32 then 32 else 64) |||
        (bitsXor (c >>> (BITS / 2 - 1)) (BITS / 2 - 1)) <<< (BITS - 1) |||
        (1 ^^^ bitsXor c (BITS / 2 - 1)) := by
  unfold add_parity
  simp only [parityLoop_eq]
  have hpe : (0 : Nat) ^^^ bitsXor (c >>> (BITS / 2 - 1)) (BITS / 2 - 1) =
      bitsXor (c >>> (BITS / 2 - 1)) (BITS / 2 - 1) := Nat.zero_xor _
  rw [hpe]
  have hmod : (bitsXor (c >>> (BITS / 2 - 1)) (BITS / 2 - 1)) <<< (BITS - 1) %
      2 ^ (if BITS ≤ 32 then 32 else 64) =
      (bitsXor (c >>> (BITS / 2 - 1)) (BITS / 2 - 1)) <<< (BITS - 1) := by
    apply Nat.mod_eq_of_lt
    rw [Nat.shiftLeft_eq]
    have hb : bitsXor (c >>> (BITS / 2 - 1)) (BITS / 2 - 1) ≤ 1 := bitsXor_le_one _ _
    calc bitsXor (c >>> (BITS / 2 - 1)) (BITS / 2 - 1) * 2 ^ (BITS - 1)
        ≤ 1 * 2 ^ (BITS - 1) := Nat.mul_le_mul_right _ hb
      _ = 2 ^ (BITS - 1) := Nat.one_mul _
      _ < 2 ^ (if BITS ≤ 32 then 32 else 64) := by
          apply Nat.pow_lt_pow_right (by norm_num)
          split <;> omega
  rw [hmod]

/-- C7: for every facility below 256 and every id fitting in BITS - 10
bits, the raw code built by the encoding entry point before parity is
attached equals (facility << (BITS-10)) | id exactly, i.e. the two fields
pack without truncation or overlap into facility * 2^(BITS-10) + id. -/
theorem raw_code_packing (BITS f id : Nat) (h10 : 10 ≤ BITS) (h64 : BITS ≤ 64)
    (hf : f < 2 ^ 8) (hid : id < 2 ^ (BITS - 10)) :
    rawCode BITS f id = f * 2 ^ (BITS - 10) + id := by
  unfold rawCode
  rw [Nat.mod_eq_of_lt hf, Nat.shiftLeft_eq]
  have hor : f * 2 ^ (BITS - 10) ||| id = f * 2 ^ (BITS - 10) + id := by
    rw [Nat.mul_comm f (2 ^ (BITS - 10))]
    exact (Nat.mul_add_lt_is_or hid f).symm
  rw [hor]
  apply Nat.mod_eq_of_lt
  have hsplit : 2 ^ 8 * 2 ^ (BITS - 10) = 2 ^ (BITS - 2) := by
    rw [← pow_add]
    congr 1
    omega
  have hlt : f * 2 ^ (BITS - 10) + id < 2 ^ (BITS - 2) := by
    calc f * 2 ^ (BITS - 10) + id
        < f * 2 ^ (BITS - 10) + 2 ^ (BITS - 10) := by omega
      _ = (f + 1) * 2 ^ (BITS - 10) := by ring
      _ ≤ 2 ^ 8 * 2 ^ (BITS - 10) := Nat.mul_le_mul_right _ (by omega)
      _ = 2 ^ (BITS - 2) := hsplit
  refine lt_of_lt_of_le hlt ?_
  apply Nat.pow_le_pow_right (by norm_num)
  split <;> omega

/-- C5 as stated is false: for BITS = 26 the raw code 4096 = 2^12 fits in
24 bits and has a set bit in the even-parity group, so addParity(4096) >> 1
carries the even parity bit at position 24 and differs from 4096 masked to
24 bits. -/
theorem shift_invariant_counterexample :
    ¬ (add_parity 26 4096 >>> 1 = 4096 % 2 ^ 24) := by decide

/-- C5 amended: for every even BITS in the supported range and every raw
code fitting in BITS - 2 bits, addParity(code, BITS) shifted right by 1 and
then masked to BITS - 2 bits equals code (the unmasked shift may
additionally carry the even-parity bit at position BITS - 2). -/
theorem shift_invariant_masked (BITS c : Nat)
    (hev : BITS % 2 = 0) (h2 : 2 ≤ BITS) (h64 : BITS ≤ 64)
    (hc : c < 2 ^ (BITS - 2)) :
    (add_parity BITS c >>> 1) % 2 ^ (BITS - 2) = c := by
  rw [add_parity_parity_layout BITS c hev h2 h64]
  have hA : (c <<< 1) % 2 ^ (if BITS ≤ 32 then 32 else 64) = c <<< 1 := by
    apply Nat.mod_eq_of_lt
    rw [Nat.shiftLeft_eq]
    calc c * 2 ^ 1 < 2 ^ (BITS - 2) * 2 ^ 1 :=
          (Nat.mul_lt_mul_right (by norm_num)).mpr hc
      _ = 2 ^ (BITS - 1) := by rw [← pow_add]; congr 1; omega
      _ ≤ 2 ^ (if BITS ≤ 32 then 32 else 64) := by
          apply Nat.pow_le_pow_right (by norm_num)
          split <;> omega
  rw [hA]
  have hpo : (1 : Nat) ^^^ bitsXor c (BITS / 2 - 1) ≤ 1 :=
    xor_le_one _ _ (by omega) (bitsXor_le_one _ _)
  apply Nat.eq_of_testBit_eq
  intro i
  rw [Nat.testBit_mod_two_pow]
  by_cases hi : i < BITS - 2
  · have h1i : (((c <<< 1) ||| (bitsXor (c >>> (BITS / 2 - 1)) (BITS / 2 - 1)) <<<
        (BITS - 1) ||| (1 ^^^ bitsXor c (BITS / 2 - 1))) >>> 1).testBit i =
        ((c <<< 1) ||| (bitsXor (c >>> (BITS / 2 - 1)) (BITS / 2 - 1)) <<<
        (BITS - 1) ||| (1 ^^^ bitsXor c (BITS / 2 - 1))).testBit (1 + i) :=
      Nat.testBit_shiftRight _
    rw [h1i, Nat.testBit_or, Nat.testBit_or]
    have hAbit : (c <<< 1).testBit (1 + i) = c.testBit i := by
      rw [Nat.testBit_shiftLeft]
      have ha : 1 + i - 1 = i := by omega
      have hb : 1 ≤ 1 + i := by omega
      simp [ha, hb]
    have hBbit : ((bitsXor (c >>> (BITS / 2 - 1)) (BITS / 2 - 1)) <<<
        (BITS - 1)).testBit (1 + i) = false := by
      rw [Nat.testBit_shiftLeft]
      have : ¬ (BITS - 1 ≤ 1 + i) := by omega
      simp [this]
    have hCbit : ((1 : Nat) ^^^ bitsXor c (BITS / 2 - 1)).testBit (1 + i) = false := by
      apply Nat.testBit_eq_false_of_lt
      calc (1 : Nat) ^^^ bitsXor c (BITS / 2 - 1) ≤ 1 := hpo
        _ < 2 ^ (1 + i) := Nat.one_lt_two_pow (by omega)
    rw [hAbit, hBbit, hCbit]
    simp [hi]
  · have hcf : c.testBit i = false := by
      apply Nat.testBit_eq_false_of_lt
      refine lt_of_lt_of_le hc ?_
      apply Nat.pow_le_pow_right (by norm_num)
      omega
    simp [hi, hcf]

/-! ### Concrete witnesses -/

/-- Witness for C1 at code 2 (bits 1,0), bitCount 2, from a fresh
interface. -/
theorem send_pulse_sequence_witness :
    (1 ≤ 2 ∧ 2 ≤ 64 ∧ initS.state_ = MState.idle) ∧
    ((send 2 2 initS).1 = true ∧ SendTraceSpec 2 2 (send 2 2 initS).2) :=
  ⟨⟨by decide, by decide, rfl⟩,
   send_pulse_sequence 2 2 initS (by decide) (by decide) rfl⟩

/-- Witness for C2 at BITS 26 and the raw Wiegand-26 code for facility 1,
id 1. -/
theorem add_parity_parity_layout_witness :
    (26 % 2 = 0 ∧ 2 ≤ 26 ∧ 26 ≤ 64) ∧
    add_parity 26 65537 =
      (65537 <<< 1) % 2 ^ (if 26 ≤ 32 then 32 else 64) |||
        (bitsXor (65537 >>> (26 / 2 - 1)) (26 / 2 - 1)) <<< (26 - 1) |||
        (1 ^^^ bitsXor 65537 (26 / 2 - 1)) :=
  ⟨⟨by decide, by decide, by decide⟩,
   add_parity_parity_layout 26 65537 (by decide) (by decide) (by decide)⟩

/-- Witness for C3: a second send during a 4-bit transmission is rejected
without any state change. -/
theorem send_busy_rejected_witness :
    (send 3 4 initS).2.state_ ≠ MState.idle ∧
    send 1 2 (send 3 4 initS).2 = (false, (send 3 4 initS).2) :=
  ⟨by decide, send_busy_rejected 1 2 (send 3 4 initS).2 (by decide)⟩

/-- Witness for C4 at bitCount 40, code 0xAB00000001: bit 8 is the last
primary-word bit (mask 2^0), after whose phase-0 tick the mask is 2^31 and
the active code is the extension word; 40 pulses in total. -/
theorem wide_send_carry_over_witness :
    (32 < 40 ∧ 40 ≤ 64 ∧ initS.state_ = MState.idle) ∧
    (send 734439407617 40 initS).1 = true ∧
    (tickN (send 734439407617 40 initS).2 (4 * (8 - 1))).code_ =
      (734439407617 >>> 32) % 2 ^ 32 ∧
    (tickN (send 734439407617 40 initS).2 (4 * (8 - 1))).mask_bit_ =
      2 ^ (40 - 32 - 8) ∧
    (tickN (send 734439407617 40 initS).2 (4 * (40 - 32 - 1) + 1)).mask_bit_ =
      2 ^ 31 ∧
    (tickN (send 734439407617 40 initS).2 (4 * (40 - 32 - 1) + 1)).code_ =
      734439407617 % 2 ^ 32 ∧
    pulsesUpTo (send 734439407617 40 initS).2 (4 * (40 - 1) + 2) = 40 := by
  have h := wide_send_carry_over 734439407617 40 initS (by decide) (by decide) rfl
  exact ⟨⟨by decide, by decide, rfl⟩, h.1,
    (h.2.1 8 (by decide) (by decide)).1, (h.2.1 8 (by decide) (by decide)).2,
    h.2.2.1, h.2.2.2.1, h.2.2.2.2⟩

/-- Witness for the amended C5 at BITS 26, code 4096 (the counterexample
input of the unamended claim). -/
theorem shift_invariant_masked_witness :
    (26 % 2 = 0 ∧ 2 ≤ 26 ∧ 26 ≤ 64 ∧ 4096 < 2 ^ (26 - 2)) ∧
    (add_parity 26 4096 >>> 1) % 2 ^ (26 - 2) = 4096 :=
  ⟨⟨by decide, by decide, by decide, by decide⟩,
   shift_invariant_masked 26 4096 (by decide) (by decide) (by decide) (by decide)⟩

/-- Witness for C6 at the mid-pulse state one tick into a 4-bit job (one
line is actually driven low there). -/
theorem lines_never_both_low_witness :
    ¬(drivenLow (tick (send 3 4 initS).2).1.d0 ∧
      drivenLow (tick (send 3 4 initS).2).1.d1) ∧
    countLow (tick (tick (send 3 4 initS).2).1).2 ≤ 1 :=
  lines_never_both_low (tick (send 3 4 initS).2).1
    (Reachable.step_tick (Reachable.step_send 3 4 Reachable.init))

/-- Witness for C7 at BITS 26, facility 1, id 1. -/
theorem raw_code_packing_witness :
    (10 ≤ 26 ∧ 26 ≤ 64 ∧ 1 < 2 ^ 8 ∧ 1 < 2 ^ (26 - 10)) ∧
    rawCode 26 1 1 = 1 * 2 ^ (26 - 10) + 1 :=
  ⟨⟨by decide, by decide, by decide, by decide⟩,
   raw_code_packing 26 1 1 (by decide) (by decide) (by decide) (by decide)⟩

/-- Witness for C8: the fresh interface versus an idle interface with
residual job fields (code_ 123, code_ext_ 456, mask_bit_ 8, send_pos_ 13,
send_bits_ 99), same send(1, 2), compared at tick 4 (the second bit's
pulse). -/
theorem send_history_independence_witness :
    (1 ≤ 2 ∧ 2 ≤ 64 ∧ initS.state_ = MState.idle ∧
      (S.mk MState.idle 123 456 8 13 99 pinInit pinInit).state_ = MState.idle) ∧
    opsAt (send 1 2 initS).2 4 =
      opsAt (send 1 2 (S.mk MState.idle 123 456 8 13 99 pinInit pinInit)).2 4 :=
  ⟨⟨by decide, by decide, rfl, rfl⟩,
   send_history_independence 1 2 initS
     (S.mk MState.idle 123 456 8 13 99 pinInit pinInit)
     (by decide) (by decide) rfl rfl 4⟩

/-- Witness for C9: send(7, 0) from a fresh interface; still SENDING at the
start of the 10th subsequent bit period. -/
theorem send_zero_bits_wraps_witness :
    initS.state_ = MState.idle ∧
    (send 7 0 initS).1 = true ∧
    (send 7 0 initS).2.state_ = MState.sending ∧
    (send 7 0 initS).2.send_bits_ = 0 ∧
    (tickN (send 7 0 initS).2 2).state_ = MState.sending ∧
    (tickN (send 7 0 initS).2 2).send_bits_ = 2 ^ 64 - 1 ∧
    (tickN (send 7 0 initS).2 (2 + 4 * 10)).state_ = MState.sending := by
  have h := send_zero_bits_wraps 7 initS rfl
  exact ⟨rfl, h.1, h.2.1, h.2.2.1, h.2.2.2.1, h.2.2.2.2.1,
    h.2.2.2.2.2 10 (by decide)⟩

/-- Witness for C10 at the idle state reached after a completed 2-bit
transmission (6 ticks). -/
theorem idle_pins_input_witness :
    (tickN (send 3 2 initS).2 6).state_ = MState.idle ∧
    ((tickN (send 3 2 initS).2 6).d0.mode = PMode.input ∧
     (tickN (send 3 2 initS).2 6).d1.mode = PMode.input) :=
  ⟨by decide,
   idle_pins_input (tickN (send 3 2 initS).2 6)
     (Reachable.step_tick (Reachable.step_tick (Reachable.step_tick
       (Reachable.step_tick (Reachable.step_tick (Reachable.step_tick
         (Reachable.step_send 3 2 Reachable.init)))))))
     (by decide)⟩

end EmbeddedWiegand
